import Mathlib

/-!
# Verification of the phonebook normalizer (`src/main.py`)

Shallow embedding of the core of the repository:

* `process_phone`                — phone canonicalization (`main.py` lines 6–28)
* `process_phone_with_extension` — phone + extension handling (lines 31–43)
* `parse_fio`                    — full-name splitting (lines 46–67)
* `merge_contacts`               — duplicate merging (lines 70–97)
* `process_address_book_core`    — the data transformation of the
  orchestrator `process_address_book` (lines 129–178), with file I/O and
  console printing stripped away.

Strings are modelled as Lean `String`s / `List Char`.  Python's Unicode
digit class (`\d` in `re.sub(r'\D', ...)`) is modelled as the ASCII
decimal digits (`Char.isDigit`), and Python's `\s` / `str.strip`
whitespace as `Char.isWhitespace`; both choices are applied uniformly to
the code-side and the spec-side definitions, so no claim hinges on the
exotic Unicode-only members of those classes.  Python's case-insensitive
matching of the Cyrillic marker "доб" (`str.lower` and `re.IGNORECASE`)
is modelled by the char-wise lowering `lowerRu`, which covers ASCII and
the Cyrillic alphabet actually involved in the marker.
-/

namespace Phonebook

/-- Char-wise lower-casing covering ASCII and the basic Cyrillic block
(models Python's `str.lower` / `re.IGNORECASE` on the characters that can
case-insensitively match the marker "доб"). -/
def lowerRu (c : Char) : Char :=
  if 'A' ≤ c ∧ c ≤ 'Z' then Char.ofNat (c.toNat + 32)
  else if 'А' ≤ c ∧ c ≤ 'Я' then Char.ofNat (c.toNat + 32)
  else if c = 'Ё' then 'ё'
  else c

/-- `main.py` lines 6–28, `process_phone`: strip non-digits, turn a
leading `8` into `7`, and if exactly 11 digits remain starting with `7`,
format as `+7(ABC)DEF-GH-IJ` (slices `[:3]`, `[3:6]`, `[6:8]`, `[8:]` of
the 10 digits after the country code); otherwise return the raw input.
An empty input short-circuits to the empty string. -/
def process_phone (phone : String) : String :=
  if phone = "" then ""
  else
    let digits0 := phone.data.filter Char.isDigit
    let digits := if digits0.take 1 = ['8'] then '7' :: digits0.drop 1 else digits0
    if digits.length = 11 ∧ digits.take 1 = ['7'] then
      let main_number := digits.drop 1
      String.mk (['+', '7', '('] ++ main_number.take 3 ++ [')'] ++
        (main_number.drop 3).take 3 ++ ['-'] ++
        (main_number.drop 6).take 2 ++ ['-'] ++ main_number.drop 8)
    else phone

/-- True when the list starts (case-insensitively) with the marker
`доб` — the anchored version of Python's regex `доб` with `re.IGNORECASE`. -/
def isMarkerAt (l : List Char) : Bool :=
  match l with
  | a :: b :: c :: _ => lowerRu a = 'д' ∧ lowerRu b = 'о' ∧ lowerRu c = 'б'
  | _ => false

/-- `'доб' in phone.lower()` (`main.py` line 37): the lowered string has
`доб` as a substring. -/
def hasMarker : List Char → Bool
  | [] => false
  | c :: rest => isMarkerAt (c :: rest) || hasMarker rest

/-- After the three marker letters, the regex `доб\.?\s*` greedily
consumes one optional literal dot and then any whitespace. -/
def consumeDotWs (l : List Char) : List Char :=
  (match l with
   | '.' :: r => r
   | _ => l).dropWhile Char.isWhitespace

/-- Leftmost match of the regex `доб\.?\s*` (IGNORECASE): returns the
text before the match and the text after the match, or `none` when the
pattern does not occur. -/
def findMarker : List Char → Option (List Char × List Char)
  | [] => none
  | c :: rest =>
    if isMarkerAt (c :: rest) then some ([], consumeDotWs (rest.drop 2))
    else
      match findMarker rest with
      | none => none
      | some (pre, suf) => some (c :: pre, suf)

/-- Fuel-driven worker for `splitDob`; each marker match consumes at
least three characters, so fuel equal to the input length suffices. -/
def splitDobGo : Nat → List Char → List (List Char)
  | 0, l => [l]
  | Nat.succ fuel, l =>
    match findMarker l with
    | none => [l]
    | some (pre, suf) => pre :: splitDobGo fuel suf

/-- `re.split(r'доб\.?\s*', phone, flags=re.IGNORECASE)` (`main.py`
line 38): the list of segments between consecutive marker matches. -/
def splitDob (l : List Char) : List (List Char) :=
  splitDobGo l.length l

/-- The extension segment the code actually uses: the text after the
first marker, truncated at the next marker occurrence (if any). -/
def extSegment (suf : List Char) : List Char :=
  match findMarker suf with
  | none => suf
  | some qs => qs.1

/-- `main.py` lines 31–43, `process_phone_with_extension`: split on the
extension marker; `parts[0]` feeds `process_phone`, `parts[1]` (when it
exists) is stripped to its digits, and a non-empty digit tail is appended
as ` доб.<digits>`.  Python's unguarded `parts[0]` is rendered with
`List.headD` (the safety of that access is proved separately via
`process_phone_with_extension_checked`). -/
def process_phone_with_extension (phone : String) : String :=
  if phone = "" then ""
  else if hasMarker phone.data then
    let parts := splitDob phone.data
    let main_phone := process_phone (String.mk (parts.headD []))
    let extDigits := if parts.length > 1 then
        String.mk ((parts.getD 1 []).filter Char.isDigit)
      else ""
    if extDigits ≠ "" then main_phone ++ " доб." ++ extDigits else main_phone
  else process_phone phone

example : process_phone "89161234567" = "+7(916)123-45-67" := by decide
example : process_phone "" = "" := by decide
example : process_phone "abc" = "abc" := by decide
example : process_phone "+7 916 123-45-67" = "+7(916)123-45-67" := by decide
example : process_phone_with_extension "+7 916 123-45-67 доб. 123" = "+7(916)123-45-67 доб.123" := by decide
example : process_phone_with_extension "xдоб5" = "x доб.5" := by decide
example : process_phone_with_extension "89161234567доб1доб2" = "+7(916)123-45-67 доб.1" := by decide

/-! ## Name parser (`parse_fio`, `main.py` lines 46–67) -/

/-- Python `str.strip()`: drop whitespace from both ends. -/
def pyStrip (l : List Char) : List Char :=
  ((l.dropWhile Char.isWhitespace).reverse.dropWhile Char.isWhitespace).reverse

/-- Python `s.split(' ')` with an explicit single-space separator:
splits at every space, keeping empty segments. -/
def splitSpace : List Char → List (List Char)
  | [] => [[]]
  | c :: rest =>
    if c = ' ' then [] :: splitSpace rest
    else
      match splitSpace rest with
      | [] => [[c]]
      | p :: ps => (c :: p) :: ps

/-- The token list `parts` of `parse_fio`: strip, split on single
spaces, drop the empty segments (`main.py` lines 48–51). -/
def fioParts (fio_string : String) : List (List Char) :=
  (splitSpace (pyStrip fio_string.data)).filter (· ≠ [])

/-- `main.py` lines 46–67, `parse_fio`: position-based split of a
full-name string into (lastname, firstname, surname/patronymic). -/
def parse_fio (fio_string : String) : String × String × String :=
  match fioParts fio_string with
  | p0 :: p1 :: p2 :: _ => (String.mk p0, String.mk p1, String.mk p2)
  | [p0, p1] => (String.mk p0, String.mk p1, "")
  | [p0] => (String.mk p0, "", "")
  | [] => ("", "", "")

example : parse_fio "Иванов Иван Иванович" = ("Иванов", "Иван", "Иванович") := by decide
example : parse_fio "  Иванов   Иван  " = ("Иванов", "Иван", "") := by decide
example : parse_fio "Иванов" = ("Иванов", "", "") := by decide
example : parse_fio "" = ("", "", "") := by decide
example : parse_fio "a b c d" = ("a", "b", "c") := by decide

/-! ## Contacts and the merger (`merge_contacts`, `main.py` lines 70–97) -/

/-- The only entity of the data model: a flat record of seven string
fields (empty string = absent).  Field names follow `main.py`
(`surname` is the patronymic). -/
structure Contact where
  lastname : String
  firstname : String
  surname : String
  organization : String
  position : String
  phone : String
  email : String
  deriving DecidableEq, Repr

/-- The all-empty accumulator a `defaultdict` entry starts from
(`main.py` lines 72–80). -/
def emptyContact : Contact :=
  ⟨"", "", "", "", "", "", ""⟩

/-- Grouping key: `(contact['lastname'], contact['firstname'])`
(`main.py` line 84). -/
def key (c : Contact) : String × String :=
  (c.lastname, c.firstname)

/-- One field update of the merge loop: `if contact[field] and not
merged[key][field]` (`main.py` lines 87–95): first-non-empty-wins. -/
def mergeField (acc inc : String) : String :=
  if inc ≠ "" ∧ acc = "" then inc else acc

/-- Fold one incoming contact into a key's accumulator: every one of the
seven fields uses the first-non-empty-wins update. -/
def absorb (acc inc : Contact) : Contact :=
  { lastname := mergeField acc.lastname inc.lastname
    firstname := mergeField acc.firstname inc.firstname
    surname := mergeField acc.surname inc.surname
    organization := mergeField acc.organization inc.organization
    position := mergeField acc.position inc.position
    phone := mergeField acc.phone inc.phone
    email := mergeField acc.email inc.email }

/-- True when at least one of the seven fields is non-empty.  Every
access to `merged[key]` in `main.py` lines 87–95 sits behind
`contact[field] and ...`, and Python's `and` short-circuits: only a
contact with some truthy field ever evaluates `merged[key]`, so only
such a contact can create a `defaultdict` entry. -/
def hasNonEmptyField (c : Contact) : Bool :=
  c.lastname ≠ "" || c.firstname ≠ "" || c.surname ≠ "" ||
  c.organization ≠ "" || c.position ≠ "" || c.phone ≠ "" || c.email ≠ ""

/-- One step of the merge loop on the accumulator table.  The table is
the `defaultdict` rendered as an association list in insertion order: a
fresh key is appended at the end (Python dicts preserve insertion
order) but only when the incoming contact has some non-empty field —
an all-empty contact short-circuits every `contact[field] and ...`
guard and never touches `merged[key]`.  An existing key's accumulator
absorbs the incoming contact (an all-empty contact leaves it
unchanged, matching the skipped accesses). -/
def updateTable : List ((String × String) × Contact) → Contact → List ((String × String) × Contact)
  | [], c => if hasNonEmptyField c then [(key c, absorb emptyContact c)] else []
  | (k, acc) :: rest, c =>
    if k = key c then (k, absorb acc c) :: rest
    else (k, acc) :: updateTable rest c

/-- `main.py` lines 70–97, `merge_contacts`: group by (lastname,
firstname), first-non-empty-wins per field, return `list(merged.values())`. -/
def merge_contacts (contacts_list : List Contact) : List Contact :=
  (contacts_list.foldl updateTable []).map Prod.snd

example :
    merge_contacts
      [⟨"Иванов", "Иван", "", "", "", "111", "a@x"⟩,
       ⟨"Иванов", "Иван", "Иванович", "Firm", "Mgr", "222", ""⟩] =
      [⟨"Иванов", "Иван", "Иванович", "Firm", "Mgr", "111", "a@x"⟩] := by decide

example : merge_contacts [emptyContact] = [] := by decide

example :
    merge_contacts [emptyContact, ⟨"A", "B", "", "", "", "", ""⟩, ⟨"", "", "x", "", "", "", ""⟩] =
      [⟨"A", "B", "", "", "", "", ""⟩, ⟨"", "", "x", "", "", "", ""⟩] := by decide

/-! ## Orchestrator (`process_address_book`, `main.py` lines 129–178)

Only the data transformation is embedded: the CSV reader/writer and the
console printing are I/O collaborators outside the core.  The per-record
loop body is lines 138–165, the merge invocation is line 170. -/

/-- The loop body of `process_address_book` (`main.py` lines 138–165):
rebuild the full-name string from the non-empty name fields, re-parse
it, normalize the phone, pass the rest through. -/
def processRecord (contact : Contact) : Contact :=
  let fio_parts : List String :=
    (if contact.lastname ≠ "" then [contact.lastname] else []) ++
    (if contact.firstname ≠ "" then [contact.firstname] else []) ++
    (if contact.surname ≠ "" then [contact.surname] else [])
  let fio_string := String.intercalate " " fio_parts
  match parse_fio fio_string with
  | (lastname, firstname, surname) =>
    { lastname := lastname
      firstname := firstname
      surname := surname
      organization := contact.organization
      position := contact.position
      phone := process_phone_with_extension contact.phone
      email := contact.email }

/-- `process_address_book` minus file I/O and printing (`main.py` lines
138–170): process every record, then merge once. -/
def process_address_book_core (raw_contacts : List Contact) : List Contact :=
  merge_contacts (raw_contacts.map processRecord)

example :
    process_address_book_core
      [⟨"Иванов", "Иван", "", "", "", "89161234567", "a@x.com"⟩,
       ⟨"Иванов", "Иван", "Иванович", "Firm", "Mgr", "", ""⟩] =
      [⟨"Иванов", "Иван", "Иванович", "Firm", "Mgr", "+7(916)123-45-67", "a@x.com"⟩] := by
  decide

/-! ## Spec-side definitions

These follow the wording of the specification / claims, to be compared
with the code-side definitions above. -/

/-- Spec-side phone normalizer, following §4.1 of the spec word for
word: strip every non-digit, replace a leading `8` of the digit sequence
with `7`; if the result is exactly 11 digits starting with `7`, format
as `+7(ABC)DEF-GH-IJ` with the 10 digits after the leading `7` split
into groups of 3/3/2/2; otherwise return the raw string unchanged
(empty input maps to the empty string since the raw string is empty). -/
def normalizePhone_spec (raw : String) : String :=
  let cleaned := raw.data.filter Char.isDigit
  let canon := if cleaned.take 1 = ['8'] then '7' :: cleaned.drop 1 else cleaned
  if canon.length = 11 ∧ canon.take 1 = ['7'] then
    let ten := canon.drop 1
    String.mk (['+', '7', '('] ++ ten.take 3 ++ [')'] ++
      (ten.drop 3).take 3 ++ ['-'] ++
      ((ten.drop 6).take 2) ++ ['-'] ++ ((ten.drop 8).take 2))
  else raw

/-- Spec-side extension handling as the claim words it: split at the
*first* marker only, the extension part being *everything after the
first marker* stripped to its digits.  (The code instead takes only the
segment up to the next marker; `C3_counterexample` separates the two.) -/
def normalizePhoneWithExtension_claim (phone : String) : String :=
  if phone = "" then ""
  else
    match findMarker phone.data with
    | none => process_phone phone
    | some (pre, suf) =>
      let main_phone := process_phone (String.mk pre)
      let extDigits := String.mk (suf.filter Char.isDigit)
      if extDigits ≠ "" then main_phone ++ " доб." ++ extDigits else main_phone

/-- Decides whether a string matches the canonical pattern
`+7(XXX)XXX-XX-XX`, optionally followed by ` доб.<digits>` with at least
one digit — the §3 invariant of the spec. -/
def isCanonicalPhone (s : String) : Bool :=
  match s.data with
  | '+' :: '7' :: '(' :: a :: b :: c :: ')' :: d :: e :: f :: '-' :: g :: h :: '-' :: i :: j :: rest =>
    [a, b, c, d, e, f, g, h, i, j].all Char.isDigit &&
    (match rest with
     | [] => true
     | ' ' :: 'д' :: 'о' :: 'б' :: '.' :: ds => ds ≠ [] && ds.all Char.isDigit
     | _ => false)
  | _ => false

example : isCanonicalPhone "+7(916)123-45-67" = true := by decide
example : isCanonicalPhone "+7(916)123-45-67 доб.123" = true := by decide
example : isCanonicalPhone "+7(916)123-45-67 доб." = false := by decide
example : isCanonicalPhone "x доб.5" = false := by decide

/-- Spec-side name parser, following §4.2: trim, split on single
spaces, discard empty tokens, then assign by position. -/
def parseFullName_spec (full : String) : String × String × String :=
  let tokens := ((splitSpace (pyStrip full.data)).filter (· ≠ [])).map String.mk
  match tokens with
  | t1 :: t2 :: t3 :: _ => (t1, t2, t3)
  | [t1, t2] => (t1, t2, "")
  | [t1] => (t1, "", "")
  | [] => ("", "", "")

/-- The distinct grouping keys of an input sequence in order of first
occurrence — the output order C10 claims for `merge_contacts`.  (The
code's actual order differs: see `insertionKeys`.) -/
def firstOccKeys : List Contact → List (String × String)
  | [] => []
  | c :: rest => key c :: (firstOccKeys rest).filter (fun k => k ≠ key c)

/-- The keys of the groups `merge_contacts` actually creates, in the
`defaultdict`'s insertion order: the key of each contact having at
least one non-empty field, in order of first such contact — an
all-empty contact creates no entry. -/
def insertionKeys : List Contact → List (String × String)
  | [] => []
  | c :: rest =>
    if hasNonEmptyField c then key c :: (insertionKeys rest).filter (fun k => k ≠ key c)
    else insertionKeys rest

/-- The first non-empty value of field `f` among the contacts of `l`
whose grouping key is `k`, scanned in input order (empty if none) — the
claimed content of each field of a merged contact. -/
def firstVal (f : Contact → String) (k : String × String) (l : List Contact) : String :=
  ((((l.filter (fun c => key c = k))).map f).find? (fun v => v ≠ "")).getD ""

/-- The claimed merged contact for key `k`: every field is the first
non-empty value among the key's group, in input order. -/
def mkMerged (k : String × String) (l : List Contact) : Contact :=
  { lastname := firstVal (fun c => c.lastname) k l
    firstname := firstVal (fun c => c.firstname) k l
    surname := firstVal (fun c => c.surname) k l
    organization := firstVal (fun c => c.organization) k l
    position := firstVal (fun c => c.position) k l
    phone := firstVal (fun c => c.phone) k l
    email := firstVal (fun c => c.email) k l }

/-- `process_phone_with_extension` with every Python list indexing made
fallible: `parts[0]` (unguarded in the source, line 39) and `parts[1]`
(guarded by `len(parts) > 1`, line 40) return `none` when out of range,
modelling an `IndexError`.  Totality of the source function is the
statement that this never returns `none`. -/
def process_phone_with_extension_checked (phone : String) : Option String :=
  if phone = "" then some ""
  else if hasMarker phone.data then
    let parts := splitDob phone.data
    match parts[0]? with
    | none => none
    | some p0 =>
      let main_phone := process_phone (String.mk p0)
      match (if parts.length > 1 then
               match parts[1]? with
               | none => none
               | some p1 => some (String.mk (p1.filter Char.isDigit))
             else some "") with
      | none => none
      | some extDigits =>
        some (if extDigits ≠ "" then main_phone ++ " доб." ++ extDigits else main_phone)
  else some (process_phone phone)

/-- `parse_fio` with every Python list indexing made fallible:
`parts[0]`, `parts[1]`, `parts[2]` under the length guards of
`main.py` lines 54–63 return `none` when out of range. -/
def parse_fio_checked (fio_string : String) : Option (String × String × String) :=
  let parts := fioParts fio_string
  if parts.length ≥ 3 then
    match parts[0]?, parts[1]?, parts[2]? with
    | some p0, some p1, some p2 => some (String.mk p0, String.mk p1, String.mk p2)
    | _, _, _ => none
  else if parts.length = 2 then
    match parts[0]?, parts[1]? with
    | some p0, some p1 => some (String.mk p0, String.mk p1, "")
    | _, _ => none
  else if parts ≠ [] then
    match parts[0]? with
    | some p0 => some (String.mk p0, "", "")
    | none => none
  else some ("", "", "")

/-- Spec-side per-record transform of the orchestrator, following §4.4:
join the non-empty name fields with single spaces, re-parse through the
name parser, normalize the phone, pass organization/position/email
through unchanged. -/
def processRecord_spec (r : Contact) : Contact :=
  let fio := String.intercalate " " ([r.lastname, r.firstname, r.surname].filter (· ≠ ""))
  { lastname := (parse_fio fio).1
    firstname := (parse_fio fio).2.1
    surname := (parse_fio fio).2.2
    organization := r.organization
    position := r.position
    phone := process_phone_with_extension r.phone
    email := r.email }

/-! ## Lemmas about the marker machinery -/

theorem consumeDotWs_length (l : List Char) : (consumeDotWs l).length ≤ l.length := by
  have hd : ∀ m : List Char, (m.dropWhile Char.isWhitespace).length ≤ m.length :=
    fun m => (List.dropWhile_sublist _).length_le
  unfold consumeDotWs
  split
  · next r => exact le_trans (hd r) (by simp)
  · exact hd l

theorem isMarkerAt_length {l : List Char} (h : isMarkerAt l = true) : 3 ≤ l.length := by
  unfold isMarkerAt at h
  split at h
  · next a b c rest => simp
  · simp at h

theorem findMarker_some_length {l pre suf : List Char}
    (h : findMarker l = some (pre, suf)) : suf.length + 3 ≤ l.length := by
  induction l generalizing pre suf with
  | nil => simp [findMarker] at h
  | cons c rest ih =>
    rw [findMarker] at h
    split at h
    · next hm =>
      rw [Option.some.injEq, Prod.mk.injEq] at h
      obtain ⟨-, rfl⟩ := h
      have h3 : 3 ≤ (c :: rest).length := isMarkerAt_length hm
      have h1 : (consumeDotWs (rest.drop 2)).length ≤ (rest.drop 2).length :=
        consumeDotWs_length _
      simp only [List.length_drop, List.length_cons] at *
      omega
    · next hm =>
      split at h
      · exact absurd h (by simp)
      · next p' s' hrest =>
        rw [Option.some.injEq, Prod.mk.injEq] at h
        obtain ⟨-, rfl⟩ := h
        have := ih hrest
        simp only [List.length_cons]
        omega

theorem splitDobGo_fuel_irrel :
    ∀ (fuel₁ fuel₂ : Nat) (l : List Char), l.length ≤ fuel₁ → l.length ≤ fuel₂ →
      splitDobGo fuel₁ l = splitDobGo fuel₂ l := by
  intro fuel₁
  induction fuel₁ with
  | zero =>
    intro fuel₂ l h₁ h₂
    have hl : l = [] := by simpa using List.length_eq_zero.mp (Nat.le_zero.mp h₁)
    subst hl
    cases fuel₂ <;> simp [splitDobGo, findMarker]
  | succ fuel ih =>
    intro fuel₂ l h₁ h₂
    cases fuel₂ with
    | zero =>
      have hl : l = [] := by simpa using List.length_eq_zero.mp (Nat.le_zero.mp h₂)
      subst hl
      simp [splitDobGo, findMarker]
    | succ fuel' =>
      rw [splitDobGo, splitDobGo]
      cases hfm : findMarker l with
      | none => rfl
      | some ps =>
        obtain ⟨pre, suf⟩ := ps
        have hlen := findMarker_some_length hfm
        exact congrArg (pre :: ·) (ih fuel' suf (by omega) (by omega))

theorem splitDob_unfold (l : List Char) :
    splitDob l = match findMarker l with
      | none => [l]
      | some (pre, suf) => pre :: splitDob suf := by
  unfold splitDob
  cases l with
  | nil => simp [splitDobGo, findMarker]
  | cons c rest =>
    rw [List.length_cons, splitDobGo]
    cases hfm : findMarker (c :: rest) with
    | none => rfl
    | some ps =>
      obtain ⟨pre, suf⟩ := ps
      have hlen := findMarker_some_length hfm
      simp only [List.length_cons] at hlen
      exact congrArg (pre :: ·) (splitDobGo_fuel_irrel _ _ _ (by omega) (by omega))

theorem splitDob_ne_nil (l : List Char) : splitDob l ≠ [] := by
  rw [splitDob_unfold]
  cases hfm : findMarker l with
  | none => simp
  | some ps => obtain ⟨pre, suf⟩ := ps; simp

theorem findMarker_isSome_of_hasMarker {l : List Char} (h : hasMarker l = true) :
    ∃ pre suf, findMarker l = some (pre, suf) := by
  induction l with
  | nil => simp [hasMarker] at h
  | cons c rest ih =>
    rw [hasMarker, Bool.or_eq_true] at h
    rw [findMarker]
    by_cases hm : isMarkerAt (c :: rest) = true
    · exact ⟨_, _, by rw [if_pos hm]⟩
    · have hr : hasMarker rest = true := h.resolve_left hm
      obtain ⟨pre, suf, hfm⟩ := ih hr
      rw [if_neg hm, hfm]
      exact ⟨c :: pre, suf, rfl⟩

theorem hasMarker_of_findMarker {l pre suf : List Char}
    (h : findMarker l = some (pre, suf)) : hasMarker l = true := by
  induction l generalizing pre suf with
  | nil => simp [findMarker] at h
  | cons c rest ih =>
    rw [findMarker] at h
    rw [hasMarker, Bool.or_eq_true]
    split at h
    · next hm => exact Or.inl hm
    · next hm =>
      split at h
      · exact absurd h (by simp)
      · next p' s' hrest => exact Or.inr (ih hrest)

/-! ## Lemmas about `process_phone` -/

theorem exists_ten (l : List Char) (h : l.length = 10) :
    ∃ c0 c1 c2 c3 c4 c5 c6 c7 c8 c9,
      l = [c0, c1, c2, c3, c4, c5, c6, c7, c8, c9] := by
  rcases l with _ | ⟨c0, _ | ⟨c1, _ | ⟨c2, _ | ⟨c3, _ | ⟨c4, _ | ⟨c5, _ | ⟨c6, _ |
    ⟨c7, _ | ⟨c8, _ | ⟨c9, rest⟩⟩⟩⟩⟩⟩⟩⟩⟩⟩ <;> simp_all

/-- The digit list assembled by `process_phone` consists of digits. -/
theorem digits_all_digit (l : List Char) :
    (if (l.filter Char.isDigit).take 1 = ['8'] then
      '7' :: (l.filter Char.isDigit).drop 1
     else l.filter Char.isDigit).all Char.isDigit = true := by
  have h0 : (l.filter Char.isDigit).all Char.isDigit = true :=
    List.all_eq_true.mpr fun y hy => (List.mem_filter.mp hy).2
  split
  · rw [List.all_cons]
    refine (Bool.and_eq_true _ _).mpr ⟨rfl, ?_⟩
    exact List.all_eq_true.mpr fun y hy =>
      List.all_eq_true.mp h0 y (List.mem_of_mem_drop hy)
  · exact h0

theorem shape_core (p r : String) (digits : List Char)
    (hdig : digits.all Char.isDigit = true)
    (hr : r = if digits.length = 11 ∧ digits.take 1 = ['7'] then
        String.mk (['+', '7', '('] ++ (digits.drop 1).take 3 ++ [')'] ++
          ((digits.drop 1).drop 3).take 3 ++ ['-'] ++
          ((digits.drop 1).drop 6).take 2 ++ ['-'] ++ (digits.drop 1).drop 8)
      else p) :
    r = p ∨
    ∃ ds : List Char, ds.length = 10 ∧ ds.all Char.isDigit = true ∧
      r = String.mk (['+', '7', '('] ++ ds.take 3 ++ [')'] ++
        (ds.drop 3).take 3 ++ ['-'] ++ (ds.drop 6).take 2 ++ ['-'] ++ ds.drop 8) := by
  subst hr
  split
  · next h =>
    right
    refine ⟨digits.drop 1, ?_, ?_, rfl⟩
    · simp only [List.length_drop]
      omega
    · exact List.all_eq_true.mpr fun y hy =>
        List.all_eq_true.mp hdig y (List.mem_of_mem_drop hy)
  · left; rfl

/-- The result of `process_phone` is the raw input or the canonical
rendering of ten digits. -/
theorem process_phone_shape (p : String) :
    process_phone p = p ∨
    ∃ ds : List Char, ds.length = 10 ∧ ds.all Char.isDigit = true ∧
      process_phone p = String.mk (['+', '7', '('] ++ ds.take 3 ++ [')'] ++
        (ds.drop 3).take 3 ++ ['-'] ++ (ds.drop 6).take 2 ++ ['-'] ++ ds.drop 8) := by
  by_cases hp : p = ""
  · left; rw [hp]; rfl
  · rw [process_phone, if_neg hp]
    simp only []
    exact shape_core p _ _ (digits_all_digit p.data) rfl

theorem take_two_drop_eight {ds : List Char} (h : ds.length = 10) :
    (ds.drop 8).take 2 = ds.drop 8 :=
  List.take_of_length_le (by simp [h])

/-- `process_phone` coincides with the §4.1 description. -/
theorem process_phone_eq_spec_aux (phone : String) :
    process_phone phone = normalizePhone_spec phone := by
  by_cases hp : phone = ""
  · rw [hp]; rfl
  · rw [process_phone, normalizePhone_spec, if_neg hp]
    simp only []
    have key : ∀ digits : List Char,
        (if digits.length = 11 ∧ digits.take 1 = ['7'] then
          String.mk (['+', '7', '('] ++ (digits.drop 1).take 3 ++ [')'] ++
            ((digits.drop 1).drop 3).take 3 ++ ['-'] ++
            ((digits.drop 1).drop 6).take 2 ++ ['-'] ++ (digits.drop 1).drop 8)
        else phone) =
        (if digits.length = 11 ∧ digits.take 1 = ['7'] then
          String.mk (['+', '7', '('] ++ (digits.drop 1).take 3 ++ [')'] ++
            ((digits.drop 1).drop 3).take 3 ++ ['-'] ++
            ((digits.drop 1).drop 6).take 2 ++ ['-'] ++ ((digits.drop 1).drop 8).take 2)
        else phone) := by
      intro digits
      split
      · next h =>
        rw [take_two_drop_eight (by simp only [List.length_drop]; omega)]
      · rfl
    exact key _

/-! ## Lemmas about `process_phone_with_extension` -/

theorem data_eq_nil_iff (p : String) : p.data = [] ↔ p = "" := by
  constructor
  · intro h
    cases p with
    | mk d =>
      have hd : d = [] := h
      subst hd
      rfl
  · intro h; rw [h]

theorem ppwe_no_marker {p : String} (hm : hasMarker p.data = false) :
    process_phone_with_extension p = process_phone p := by
  by_cases hp : p = ""
  · rw [hp]; rfl
  · rw [process_phone_with_extension, if_neg hp]
    simp [hm]

/-- Unfolding of the marker branch: with the first marker found at
`(pre, suf)`, the main part is `pre` and the extension digits come from
the first segment of `suf`. -/
theorem ppwe_marker {p : String} {pre suf : List Char}
    (hfm : findMarker p.data = some (pre, suf)) :
    process_phone_with_extension p =
      (if String.mk (((splitDob suf).headD []).filter Char.isDigit) ≠ "" then
        process_phone (String.mk pre) ++ " доб." ++
          String.mk (((splitDob suf).headD []).filter Char.isDigit)
      else process_phone (String.mk pre)) := by
  have hp : p ≠ "" := by
    intro h
    rw [← data_eq_nil_iff] at h
    rw [h] at hfm
    simp [findMarker] at hfm
  have hm : hasMarker p.data = true := hasMarker_of_findMarker hfm
  obtain ⟨a, t, hst⟩ : ∃ a t, splitDob suf = a :: t := by
    cases h : splitDob suf with
    | nil => exact absurd h (splitDob_ne_nil suf)
    | cons a t => exact ⟨a, t, rfl⟩
  rw [process_phone_with_extension, if_neg hp, if_pos hm]
  simp only [splitDob_unfold p.data, hfm, hst]
  simp [List.getD]

theorem splitDob_headD (l : List Char) :
    (splitDob l).headD [] = extSegment l := by
  rw [splitDob_unfold, extSegment]
  cases h : findMarker l with
  | none => rfl
  | some qs => obtain ⟨q, s⟩ := qs; rfl

/-- Strings of the shape produced by the formatting branch of
`process_phone`, optionally extended by ` доб.<digits>`, match the
canonical §3 pattern. -/
theorem isCanonicalPhone_format (ds : List Char) (h10 : ds.length = 10)
    (hdig : ds.all Char.isDigit = true) (tail : List Char)
    (htail : tail = [] ∨ ∃ e : List Char, e ≠ [] ∧ e.all Char.isDigit = true ∧
      tail = [' ', 'д', 'о', 'б', '.'] ++ e)
    (s : String)
    (hs : s.data = (['+', '7', '('] ++ ds.take 3 ++ [')'] ++ (ds.drop 3).take 3 ++
      ['-'] ++ (ds.drop 6).take 2 ++ ['-'] ++ ds.drop 8) ++ tail) :
    isCanonicalPhone s = true := by
  obtain ⟨c0, c1, c2, c3, c4, c5, c6, c7, c8, c9, rfl⟩ := exists_ten ds h10
  rw [isCanonicalPhone, hs]
  simp only [List.take, List.drop, List.cons_append, List.nil_append]
  rcases htail with rfl | ⟨e, he, hedig, rfl⟩
  · simpa using hdig
  · simp_all

/-! ## The claims about the phone normalizer -/

/-- C2: for every input string, `process_phone` strips every non-digit,
replaces a leading `8` of the digit sequence with `7`, formats an
11-digit `7`-led result as `+7(ABC)DEF-GH-IJ` split 3/3/2/2, and
otherwise returns the original raw string unchanged (empty input
mapping to empty output). -/
theorem C2_process_phone_follows_spec (phone : String) :
    process_phone phone = normalizePhone_spec phone :=
  process_phone_eq_spec_aux phone

/-- C1 as stated is false: on input `"xдоб5"` the result `"x доб.5"` is
neither the original input unchanged nor a match of the canonical
pattern `+7(XXX)XXX-XX-XX( доб.<digits>)?`. -/
theorem C1_counterexample :
    process_phone_with_extension "xдоб5" ≠ "xдоб5" ∧
      isCanonicalPhone (process_phone_with_extension "xдоб5") = false := by
  decide

/-- C1 (amended): the value returned by `process_phone_with_extension`
is the original input unchanged, or matches the canonical pattern
`+7(XXX)XXX-XX-XX` optionally followed by ` доб.<digits>`, or — when an
extension marker is present but the main part fails normalization — the
raw text before the first marker, optionally followed by
` доб.<digits>`. -/
theorem C1_phone_invariant_amended (p : String) :
    process_phone_with_extension p = p ∨
    isCanonicalPhone (process_phone_with_extension p) = true ∨
    ∃ pre suf, findMarker p.data = some (pre, suf) ∧
      (process_phone_with_extension p = String.mk pre ∨
       ∃ e : String, e ≠ "" ∧ e.data.all Char.isDigit = true ∧
         process_phone_with_extension p = String.mk pre ++ " доб." ++ e) := by
  by_cases hm : hasMarker p.data = true
  · obtain ⟨pre, suf, hfm⟩ := findMarker_isSome_of_hasMarker hm
    rw [ppwe_marker hfm]
    have hedig : (((splitDob suf).headD []).filter Char.isDigit).all Char.isDigit = true :=
      List.all_eq_true.mpr fun y hy => (List.mem_filter.mp hy).2
    by_cases hee : String.mk (((splitDob suf).headD []).filter Char.isDigit) = ""
    · rw [if_neg (fun hne => hne hee)]
      rcases process_phone_shape (String.mk pre) with h | ⟨ds, h10, hdig, hfmt⟩
      · exact Or.inr (Or.inr ⟨pre, suf, hfm, Or.inl h⟩)
      · refine Or.inr (Or.inl ?_)
        exact isCanonicalPhone_format ds h10 hdig [] (Or.inl rfl) _
          (by rw [hfmt]; simp)
    · rw [if_pos hee]
      rcases process_phone_shape (String.mk pre) with h | ⟨ds, h10, hdig, hfmt⟩
      · refine Or.inr (Or.inr ⟨pre, suf, hfm, Or.inr ⟨_, hee, hedig, ?_⟩⟩)
        rw [h]
      · refine Or.inr (Or.inl ?_)
        refine isCanonicalPhone_format ds h10 hdig
          ([' ', 'д', 'о', 'б', '.'] ++
            (((splitDob suf).headD []).filter Char.isDigit)) ?_ _ ?_
        · refine Or.inr ⟨_, ?_, hedig, rfl⟩
          intro hnil
          exact hee ((data_eq_nil_iff _).mp hnil)
        · rw [hfmt]
          simp [String.data_append, List.append_assoc]
  · rw [ppwe_no_marker (by simpa using hm)]
    rcases process_phone_shape p with h | ⟨ds, h10, hdig, hfmt⟩
    · exact Or.inl h
    · exact Or.inr (Or.inl (isCanonicalPhone_format ds h10 hdig [] (Or.inl rfl) _
        (by rw [hfmt]; simp)))

/-- C3 as stated is false: with two marker occurrences the code keeps
only the digits between the first and second marker (`доб.1`), while
the claim demands all digits after the first marker (`доб.12`). -/
theorem C3_counterexample :
    process_phone_with_extension "89161234567доб1доб2" ≠
      normalizePhoneWithExtension_claim "89161234567доб1доб2" := by
  decide

/-- C3 (amended): when the marker is absent the whole string is
delegated to `process_phone`; when present, the main part is the text
before the *first* marker, but the extension digits are taken from the
segment strictly between the first marker and the *next* marker
occurrence (the whole remainder only when the marker occurs once). -/
theorem C3_extension_split_amended (p : String) :
    (hasMarker p.data = false → process_phone_with_extension p = process_phone p) ∧
    (∀ pre suf, findMarker p.data = some (pre, suf) →
      process_phone_with_extension p =
        if String.mk ((extSegment suf).filter Char.isDigit) ≠ "" then
          process_phone (String.mk pre) ++ " доб." ++
            String.mk ((extSegment suf).filter Char.isDigit)
        else process_phone (String.mk pre)) := by
  refine ⟨ppwe_no_marker, ?_⟩
  intro pre suf hfm
  rw [ppwe_marker hfm, splitDob_headD]

/-- Witness for C3 (amended) at a concrete input with one marker. -/
theorem C3_witness :
    process_phone_with_extension "89161234567 доб. 123" = "+7(916)123-45-67 доб.123" := by
  have h := (C3_extension_split_amended "89161234567 доб. 123").2
    "89161234567 ".data "123".data (by decide)
  rw [h]
  decide

/-! ## The claims about the name parser and totality -/

/-- C4: `parse_fio` trims, splits on single spaces, discards empty
tokens, and assigns tokens positionally exactly as §4.2 describes. -/
theorem C4_parse_fio_follows_spec (s : String) :
    parse_fio s = parseFullName_spec s := by
  have hf : ((splitSpace (pyStrip s.data)).filter (· ≠ [])) = fioParts s := rfl
  rw [parse_fio, parseFullName_spec, hf]
  rcases h : fioParts s with _ | ⟨p0, _ | ⟨p1, _ | ⟨p2, rest⟩⟩⟩ <;> simp only [h, List.map]

/-- C9: the two Python list indexings of the core — `parts[0]` /
`parts[1]` in `process_phone_with_extension` and `parts[0..2]` in
`parse_fio` — are always in range: the index-checked variants never
return `none` and agree with the total embeddings.  (`process_phone`
and `merge_contacts` contain no indexing and are structurally total.) -/
theorem C9_core_functions_total (s : String) :
    process_phone_with_extension_checked s = some (process_phone_with_extension s) ∧
    parse_fio_checked s = some (parse_fio s) := by
  constructor
  · by_cases hp : s = ""
    · rw [hp]; rfl
    · by_cases hm : hasMarker s.data = true
      · obtain ⟨pre, suf, hfm⟩ := findMarker_isSome_of_hasMarker hm
        obtain ⟨a, t, hst⟩ : ∃ a t, splitDob suf = a :: t := by
          cases h : splitDob suf with
          | nil => exact absurd h (splitDob_ne_nil suf)
          | cons a t => exact ⟨a, t, rfl⟩
        have hsp : splitDob s.data = pre :: a :: t := by
          rw [splitDob_unfold, hfm]
          exact congrArg (pre :: ·) hst
        rw [process_phone_with_extension_checked, process_phone_with_extension,
          if_neg hp, if_neg hp]
        simp [hm, hsp, List.getD]
      · rw [process_phone_with_extension_checked, process_phone_with_extension,
          if_neg hp, if_neg hp]
        simp [hm]
  · rcases h : fioParts s with _ | ⟨p0, _ | ⟨p1, _ | ⟨p2, rest⟩⟩⟩ <;>
      simp [parse_fio_checked, parse_fio, h, Nat.le_add_left]

/-! ## Lemmas about `merge_contacts` -/

theorem insertionKeys_mem {l : List Contact} {k : String × String} :
    k ∈ insertionKeys l ↔ ∃ c ∈ l, hasNonEmptyField c = true ∧ key c = k := by
  induction l with
  | nil => simp [insertionKeys]
  | cons c rest ih =>
    rw [insertionKeys]
    by_cases hv : hasNonEmptyField c
    · rw [if_pos hv]
      by_cases hk : k = key c
      · subst hk
        simp [hv]
      · have hk' : ¬key c = k := fun he => hk he.symm
        simp [List.mem_filter, hk, hk', hv, ih]
    · rw [if_neg hv, ih]
      constructor
      · rintro ⟨x, hx, hvx, hkx⟩
        exact ⟨x, List.mem_cons_of_mem _ hx, hvx, hkx⟩
      · rintro ⟨x, hx, hvx, hkx⟩
        rcases List.mem_cons.mp hx with rfl | hx'
        · exact absurd hvx (by simpa using hv)
        · exact ⟨x, hx', hvx, hkx⟩

theorem insertionKeys_sub_map {l : List Contact} {k : String × String}
    (h : k ∈ insertionKeys l) : k ∈ l.map key := by
  obtain ⟨c, hc, -, hk⟩ := insertionKeys_mem.mp h
  exact hk ▸ List.mem_map_of_mem key hc

theorem insertionKeys_nodup (l : List Contact) : (insertionKeys l).Nodup := by
  induction l with
  | nil => simp [insertionKeys]
  | cons c rest ih =>
    rw [insertionKeys]
    by_cases hv : hasNonEmptyField c
    · rw [if_pos hv]
      refine List.nodup_cons.mpr ⟨?_, ih.filter _⟩
      simp [List.mem_filter]
    · rw [if_neg hv]
      exact ih

theorem insertionKeys_append (l : List Contact) (c : Contact) :
    insertionKeys (l ++ [c]) =
      if hasNonEmptyField c then
        (if key c ∈ insertionKeys l then insertionKeys l
         else insertionKeys l ++ [key c])
      else insertionKeys l := by
  induction l with
  | nil => simp [insertionKeys]
  | cons a rest ih =>
    rw [List.cons_append, insertionKeys, ih, insertionKeys]
    by_cases hva : hasNonEmptyField a
    · rw [if_pos hva, if_pos hva]
      by_cases hvc : hasNonEmptyField c
      · rw [if_pos hvc, if_pos hvc]
        by_cases h1 : key c ∈ insertionKeys rest
        · rw [if_pos h1]
          rw [if_pos (by
            rcases eq_or_ne (key c) (key a) with he | hne
            · rw [he]; exact List.mem_cons_self _ _
            · exact List.mem_cons_of_mem _ (List.mem_filter.mpr ⟨h1, by simpa using hne⟩))]
        · rw [if_neg h1]
          by_cases h2 : key c = key a
          · rw [if_pos (by rw [h2]; exact List.mem_cons_self _ _)]
            simp [List.filter_append, h2]
          · rw [if_neg (by
              intro hmem
              rcases List.mem_cons.mp hmem with he | hf
              · exact h2 he
              · exact h1 (List.mem_filter.mp hf).1)]
            simp [List.filter_append, h2]
      · rw [if_neg hvc, if_neg hvc]
    · rw [if_neg hva, if_neg hva]

/-- An all-empty contact has every field empty. -/
theorem invisible_fields {c : Contact} (h : hasNonEmptyField c = false) :
    c.lastname = "" ∧ c.firstname = "" ∧ c.surname = "" ∧
    c.organization = "" ∧ c.position = "" ∧ c.phone = "" ∧ c.email = "" := by
  rw [hasNonEmptyField] at h
  simp only [Bool.or_eq_false_iff] at h
  simp only [ne_eq, decide_not, Bool.not_eq_false', decide_eq_true_eq] at h
  exact ⟨h.1.1.1.1.1.1, h.1.1.1.1.1.2, h.1.1.1.1.2, h.1.1.1.2, h.1.1.2, h.1.2, h.2⟩

theorem mergeField_empty_inc (acc : String) : mergeField acc "" = acc := by
  simp [mergeField]

/-- Absorbing an all-empty contact changes nothing — in the Python all
seven guarded accesses are skipped. -/
theorem absorb_invisible {c : Contact} (h : hasNonEmptyField c = false)
    (acc : Contact) : absorb acc c = acc := by
  obtain ⟨h1, h2, h3, h4, h5, h6, h7⟩ := invisible_fields h
  rw [absorb, h1, h2, h3, h4, h5, h6, h7]
  simp only [mergeField_empty_inc]

theorem firstVal_append (f : Contact → String) (k : String × String)
    (l : List Contact) (c : Contact) :
    firstVal f k (l ++ [c]) =
      if key c = k then mergeField (firstVal f k l) (f c) else firstVal f k l := by
  unfold firstVal
  rw [List.filter_append, List.map_append, List.find?_append]
  by_cases hk : key c = k
  · rw [if_pos hk]
    simp only [List.filter_cons, List.filter_nil, hk, decide_True, if_true]
    cases hfind : ((l.filter (fun c => key c = k)).map f).find? (fun v => v ≠ "") with
    | some v =>
      have hv : v ≠ "" := by simpa using List.find?_some hfind
      simp [mergeField, hv]
    | none =>
      by_cases hfc : f c = "" <;> simp [mergeField, hfc]
  · rw [if_neg hk]
    simp [List.filter_cons, hk]

theorem mkMerged_append (k : String × String) (l : List Contact) (c : Contact) :
    mkMerged k (l ++ [c]) =
      if key c = k then absorb (mkMerged k l) c else mkMerged k l := by
  by_cases hk : key c = k
  · rw [if_pos hk]
    unfold mkMerged absorb
    simp only [firstVal_append, if_pos hk]
  · rw [if_neg hk]
    unfold mkMerged
    simp only [firstVal_append, if_neg hk]

/-- A key without an entry yet (no earlier contact of the group had a
non-empty field) starts its merged contact from the incoming one. -/
theorem mkMerged_new (l : List Contact) (c : Contact)
    (h : key c ∉ insertionKeys l) :
    mkMerged (key c) (l ++ [c]) = absorb emptyContact c := by
  have hempty : ∀ x ∈ l.filter (fun x => key x = key c), hasNonEmptyField x = false := by
    intro x hx
    obtain ⟨hxl, hxk⟩ := List.mem_filter.mp hx
    by_contra hvx
    exact h (insertionKeys_mem.mpr
      ⟨x, hxl, by simpa using hvx, by simpa using hxk⟩)
  have h0 : ∀ f : Contact → String,
      (∀ x : Contact, hasNonEmptyField x = false → f x = "") →
      firstVal f (key c) l = "" := by
    intro f hf
    unfold firstVal
    rw [List.find?_eq_none.mpr (fun v hv => by
      obtain ⟨x, hx, rfl⟩ := List.mem_map.mp hv
      simp [hf x (hempty x hx)])]
    rfl
  have hL := h0 (fun x => x.lastname) (fun x hx => (invisible_fields hx).1)
  have hF := h0 (fun x => x.firstname) (fun x hx => (invisible_fields hx).2.1)
  have hS := h0 (fun x => x.surname) (fun x hx => (invisible_fields hx).2.2.1)
  have hO := h0 (fun x => x.organization) (fun x hx => (invisible_fields hx).2.2.2.1)
  have hP := h0 (fun x => x.position) (fun x hx => (invisible_fields hx).2.2.2.2.1)
  have hPh := h0 (fun x => x.phone) (fun x hx => (invisible_fields hx).2.2.2.2.2.1)
  have hE := h0 (fun x => x.email) (fun x hx => (invisible_fields hx).2.2.2.2.2.2)
  unfold mkMerged absorb emptyContact
  simp [firstVal_append, hL, hF, hS, hO, hP, hPh, hE]

theorem updateTable_map_mem {ks : List (String × String)}
    {g : (String × String) → Contact} {c : Contact}
    (hnd : ks.Nodup) (h : key c ∈ ks) :
    updateTable (ks.map fun k => (k, g k)) c =
      ks.map (fun k => (k, if k = key c then absorb (g k) c else g k)) := by
  induction ks with
  | nil => simp at h
  | cons k ks ih =>
    rw [List.map_cons, updateTable]
    by_cases hk : k = key c
    · rw [if_pos hk]
      rw [List.map_cons]
      congr 1
      · simp [hk]
      · apply List.map_congr_left
        intro k' hk'
        have hne : k' ≠ key c := fun he =>
          (List.nodup_cons.mp hnd).1 (by rw [hk, ← he]; exact hk')
        simp [hne]
    · rw [if_neg hk]
      have hmem : key c ∈ ks := by
        rcases List.mem_cons.mp h with he | hf
        · exact absurd he.symm hk
        · exact hf
      rw [ih (List.nodup_cons.mp hnd).2 hmem, List.map_cons]
      congr 1
      simp [hk]

/-- Appending an all-empty contact changes no group's merged fields. -/
theorem mkMerged_append_invisible (k : String × String) (l : List Contact)
    {c : Contact} (hv : hasNonEmptyField c = false) :
    mkMerged k (l ++ [c]) = mkMerged k l := by
  rw [mkMerged_append]
  by_cases hk : key c = k
  · rw [if_pos hk, absorb_invisible hv]
  · rw [if_neg hk]

theorem updateTable_map_not_mem {ks : List (String × String)}
    {g : (String × String) → Contact} {c : Contact} (h : key c ∉ ks)
    (hv : hasNonEmptyField c = true) :
    updateTable (ks.map fun k => (k, g k)) c =
      ks.map (fun k => (k, g k)) ++ [(key c, absorb emptyContact c)] := by
  induction ks with
  | nil => simp [updateTable, hv]
  | cons k ks ih =>
    have hk : k ≠ key c := fun he => h (he ▸ List.mem_cons_self _ _)
    rw [List.map_cons, updateTable, if_neg hk,
      ih (fun hf => h (List.mem_cons_of_mem _ hf))]
    simp

/-- An all-empty contact leaves the table untouched when its key has no
entry yet: the base case creates nothing. -/
theorem updateTable_map_not_mem_invisible {ks : List (String × String)}
    {g : (String × String) → Contact} {c : Contact} (h : key c ∉ ks)
    (hv : hasNonEmptyField c = false) :
    updateTable (ks.map fun k => (k, g k)) c = ks.map (fun k => (k, g k)) := by
  induction ks with
  | nil => simp [updateTable, hv]
  | cons k ks ih =>
    have hk : k ≠ key c := fun he => h (he ▸ List.mem_cons_self _ _)
    rw [List.map_cons, updateTable, if_neg hk,
      ih (fun hf => h (List.mem_cons_of_mem _ hf))]

/-- The accumulator table after the whole fold: one entry per distinct
key of the contacts having a non-empty field, in insertion order, each
carrying the first non-empty value of every field of its group. -/
theorem table_spec (l : List Contact) :
    l.foldl updateTable [] = (insertionKeys l).map (fun k => (k, mkMerged k l)) := by
  induction l using List.reverseRecOn with
  | nil => rfl
  | append_singleton l c ih =>
    rw [List.foldl_append, List.foldl_cons, List.foldl_nil, ih, insertionKeys_append]
    by_cases hv : hasNonEmptyField c
    · rw [if_pos hv]
      by_cases hmem : key c ∈ insertionKeys l
      · rw [if_pos hmem, updateTable_map_mem (insertionKeys_nodup l) hmem]
        apply List.map_congr_left
        intro k hk
        rw [mkMerged_append]
        by_cases h2 : k = key c
        · rw [if_pos h2, if_pos h2.symm]
        · rw [if_neg h2, if_neg (fun he => h2 he.symm)]
      · rw [if_neg hmem, updateTable_map_not_mem hmem hv, List.map_append]
        congr 1
        · apply List.map_congr_left
          intro k hk
          rw [mkMerged_append, if_neg (fun he => hmem (by rw [he]; exact hk))]
        · rw [List.map_cons, List.map_nil, mkMerged_new l c hmem]
    · rw [if_neg hv]
      have hinv : hasNonEmptyField c = false := by simpa using hv
      by_cases hmem : key c ∈ insertionKeys l
      · rw [updateTable_map_mem (insertionKeys_nodup l) hmem]
        apply List.map_congr_left
        intro k hk
        rw [mkMerged_append_invisible k l hinv]
        by_cases h2 : k = key c
        · rw [if_pos h2, absorb_invisible hinv]
        · rw [if_neg h2]
      · rw [updateTable_map_not_mem_invisible hmem hinv]
        apply List.map_congr_left
        intro k hk
        rw [mkMerged_append_invisible k l hinv]

/-- `merge_contacts` in closed form: the merged contacts are exactly
`mkMerged k l` for the distinct keys `k` of the contacts having a
non-empty field, in insertion order. -/
theorem merge_characterization (l : List Contact) :
    merge_contacts l = (insertionKeys l).map (fun k => mkMerged k l) := by
  rw [merge_contacts, table_spec, List.map_map]
  rfl

/-- When every contact of `k`'s group agrees on a field (as the two key
fields do), the first non-empty value is that common value. -/
theorem firstVal_key_field (l : List Contact) (k : String × String)
    (hk : k ∈ l.map key) (f : Contact → String) (v : String)
    (hv : ∀ c : Contact, key c = k → f c = v) :
    firstVal f k l = v := by
  unfold firstVal
  obtain ⟨c, hc, hck⟩ := List.mem_map.mp hk
  have hx : c ∈ l.filter (fun c => key c = k) :=
    List.mem_filter.mpr ⟨hc, by simp [hck]⟩
  have hall : ∀ w ∈ (l.filter (fun c => key c = k)).map f, w = v := by
    intro w hw
    obtain ⟨x, hx', rfl⟩ := List.mem_map.mp hw
    exact hv x (by simpa using (List.mem_filter.mp hx').2)
  cases hl : (l.filter (fun c => key c = k)).map f with
  | nil => exact absurd (hl ▸ List.mem_map_of_mem f hx) (List.not_mem_nil _)
  | cons w ws =>
    have hw : w = v := hall w (hl ▸ List.mem_cons_self _ _)
    subst hw
    by_cases h0 : w = ""
    · rw [List.find?_cons_of_neg _ (by simp [h0])]
      rw [List.find?_eq_none.mpr (fun x hxw => by
        have : x = w := hall x (hl ▸ List.mem_cons_of_mem _ hxw)
        simp [this, h0])]
      simp [h0]
    · rw [List.find?_cons_of_pos _ (by simp [h0])]
      rfl

theorem key_mkMerged {l : List Contact} {k : String × String}
    (hk : k ∈ l.map key) : key (mkMerged k l) = k := by
  obtain ⟨k1, k2⟩ := k
  unfold key mkMerged
  refine Prod.ext ?_ ?_ <;> simp only
  · exact firstVal_key_field l (k1, k2) hk _ k1 (fun c hc => by
      unfold key at hc
      exact (Prod.mk.injEq _ _ _ _ ▸ hc).1)
  · exact firstVal_key_field l (k1, k2) hk _ k2 (fun c hc => by
      unfold key at hc
      exact (Prod.mk.injEq _ _ _ _ ▸ hc).2)

/-! ## The claims about `merge_contacts` and the orchestrator -/

/-- C5: every merged contact carries, in each of the seven fields, the
first non-empty value of that field among the input contacts sharing
its (lastname, firstname) key, scanned in input order. -/
theorem C5_merge_first_non_empty_wins (l : List Contact) (c : Contact)
    (hc : c ∈ merge_contacts l) :
    c.lastname = firstVal (fun x => x.lastname) (key c) l ∧
    c.firstname = firstVal (fun x => x.firstname) (key c) l ∧
    c.surname = firstVal (fun x => x.surname) (key c) l ∧
    c.organization = firstVal (fun x => x.organization) (key c) l ∧
    c.position = firstVal (fun x => x.position) (key c) l ∧
    c.phone = firstVal (fun x => x.phone) (key c) l ∧
    c.email = firstVal (fun x => x.email) (key c) l := by
  rw [merge_characterization] at hc
  obtain ⟨k, hk, rfl⟩ := List.mem_map.mp hc
  rw [key_mkMerged (insertionKeys_sub_map hk)]
  exact ⟨rfl, rfl, rfl, rfl, rfl, rfl, rfl⟩

/-- Witness for C5: two records share the key; the merged phone is the
first record's phone (`111`, not the later `222`). -/
theorem C5_witness :
    (⟨"Иванов", "Иван", "Иванович", "Firm", "Mgr", "111", "a@x"⟩ : Contact).phone =
      firstVal (fun x => x.phone)
        (key ⟨"Иванов", "Иван", "Иванович", "Firm", "Mgr", "111", "a@x"⟩)
        [⟨"Иванов", "Иван", "", "", "", "111", "a@x"⟩,
         ⟨"Иванов", "Иван", "Иванович", "Firm", "Mgr", "222", ""⟩] :=
  (C5_merge_first_non_empty_wins
    [⟨"Иванов", "Иван", "", "", "", "111", "a@x"⟩,
     ⟨"Иванов", "Иван", "Иванович", "Firm", "Mgr", "222", ""⟩]
    ⟨"Иванов", "Иван", "Иванович", "Firm", "Mgr", "111", "a@x"⟩
    (by decide)).2.2.2.2.2.1

theorem length_filter_eq_key {ks : List (String × String)} (hnd : ks.Nodup)
    (k : String × String) :
    (ks.filter (fun x => x = k)).length = if k ∈ ks then 1 else 0 := by
  induction ks with
  | nil => simp
  | cons a t ih =>
    obtain ⟨ha, ht⟩ := List.nodup_cons.mp hnd
    by_cases hak : a = k
    · subst hak
      rw [List.filter_cons_of_pos (by simp)]
      have hnil : t.filter (fun x => x = a) = [] :=
        List.filter_eq_nil_iff.mpr (fun x hx hxa => ha (by
          have hxe : x = a := by simpa using hxa
          exact hxe ▸ hx))
      simp [hnil]
    · rw [List.filter_cons_of_neg (by simp [hak])]
      rw [ih ht]
      have hka : ¬k = a := fun he => hak he.symm
      simp [List.mem_cons, hka]

/-- C6 as stated is false: a contact whose seven fields are all empty
never evaluates `merged[key]` (the `and` short-circuits), so on the
input `[emptyContact]` the key `("", "")` is observed but the output
contains zero contacts for it, not one. -/
theorem C6_counterexample :
    ("", "") ∈ [emptyContact].map key ∧
    ((merge_contacts [emptyContact]).filter (fun c => key c = ("", ""))).length = 0 := by
  decide

/-- C6 (amended): the merged output has exactly one contact per
distinct (lastname, firstname) key observed among the input contacts
having at least one non-empty field; a contact with all seven fields
empty creates no group, and all contacts with empty lastname and
firstname (and some other field non-empty) collapse into the single
`("", "")` group. -/
theorem C6_one_contact_per_key_amended (l : List Contact) (k : String × String) :
    ((merge_contacts l).filter (fun c => key c = k)).length =
      if ∃ c ∈ l, hasNonEmptyField c = true ∧ key c = k then 1 else 0 := by
  rw [merge_characterization, List.filter_map]
  rw [List.filter_congr (fun x hx => by
    simp only [Function.comp_apply]
    rw [key_mkMerged (insertionKeys_sub_map hx)])]
  rw [List.length_map, length_filter_eq_key (insertionKeys_nodup l) k]
  by_cases hm : k ∈ insertionKeys l
  · rw [if_pos hm, if_pos (insertionKeys_mem.mp hm)]
  · rw [if_neg hm, if_neg (fun he => hm (insertionKeys_mem.mpr he))]

theorem insertionKeys_eq_map {l : List Contact} (h : (l.map key).Nodup)
    (hv : ∀ c ∈ l, hasNonEmptyField c = true) :
    insertionKeys l = l.map key := by
  induction l with
  | nil => rfl
  | cons c rest ih =>
    rw [List.map_cons] at h ⊢
    obtain ⟨hc, ht⟩ := List.nodup_cons.mp h
    rw [insertionKeys, if_pos (hv c (List.mem_cons_self _ _)),
      ih ht (fun x hx => hv x (List.mem_cons_of_mem _ hx))]
    congr 1
    exact List.filter_eq_self.mpr (fun a ha => by
      simpa using fun (he : a = key c) => hc (he ▸ ha))

theorem filter_key_single {l : List Contact} (h : (l.map key).Nodup)
    {c : Contact} (hc : c ∈ l) :
    l.filter (fun x => key x = key c) = [c] := by
  induction l with
  | nil => simp at hc
  | cons a t ih =>
    rw [List.map_cons] at h
    obtain ⟨ha, ht⟩ := List.nodup_cons.mp h
    rcases List.mem_cons.mp hc with rfl | hct
    · rw [List.filter_cons_of_pos (by simp)]
      have hnil : t.filter (fun x => key x = key c) = [] :=
        List.filter_eq_nil_iff.mpr (fun x hx hxc => ha (by
          have hxe : key x = key c := by simpa using hxc
          exact hxe ▸ List.mem_map_of_mem key hx))
      rw [hnil]
    · have hne : key a ≠ key c := fun he =>
        ha (he ▸ List.mem_map_of_mem key hct)
      rw [List.filter_cons_of_neg (by simp [hne])]
      exact ih ht hct

theorem mkMerged_self {l : List Contact} (h : (l.map key).Nodup)
    {c : Contact} (hc : c ∈ l) :
    mkMerged (key c) l = c := by
  have hfil := filter_key_single h hc
  have hf : ∀ f : Contact → String, firstVal f (key c) l = f c := by
    intro f
    unfold firstVal
    rw [hfil]
    by_cases h0 : f c = ""
    · simp [h0]
    · simp [h0]
  unfold mkMerged
  rw [hf, hf, hf, hf, hf, hf, hf]

/-- C7 as stated is false: `[emptyContact]` has pairwise-distinct keys,
yet the all-empty contact never touches the `defaultdict`, so the merge
returns the empty list, not a set equal to the input. -/
theorem C7_counterexample :
    ([emptyContact].map key).Nodup ∧
    merge_contacts [emptyContact] ≠ [emptyContact] := by
  decide

/-- C7 (amended): merging an already-merged input — pairwise distinct
keys, every contact having at least one non-empty field — returns the
input list itself, in particular an equal set of contacts. -/
theorem C7_merge_idempotent_amended (l : List Contact)
    (h : (l.map key).Nodup) (hv : ∀ c ∈ l, hasNonEmptyField c = true) :
    merge_contacts l = l := by
  rw [merge_characterization, insertionKeys_eq_map h hv, List.map_map]
  exact (List.map_congr_left (fun c hc => mkMerged_self h hc)).trans (List.map_id _)

/-- Witness for C7 (amended) on a two-element duplicate-free input. -/
theorem C7_witness :
    merge_contacts
      [⟨"Иванов", "Иван", "", "F", "", "111", ""⟩,
       ⟨"Петров", "Пётр", "", "", "G", "222", ""⟩] =
      [⟨"Иванов", "Иван", "", "F", "", "111", ""⟩,
       ⟨"Петров", "Пётр", "", "", "G", "222", ""⟩] :=
  C7_merge_idempotent_amended
    [⟨"Иванов", "Иван", "", "F", "", "111", ""⟩,
     ⟨"Петров", "Пётр", "", "", "G", "222", ""⟩] (by decide) (by decide)

/-- C10 as stated is false: Python inserts a dict entry at the first
*non-empty-field access*, not at the key's first occurrence.  On
`[all-empty, ("A","B",…), ("","","x",…)]` the code lists `("A","B")`
before `("","")`, the reverse of first-occurrence order (and the
all-empty contact alone creates no entry at all). -/
theorem C10_counterexample :
    (merge_contacts
      [emptyContact, ⟨"A", "B", "", "", "", "", ""⟩,
       ⟨"", "", "x", "", "", "", ""⟩]).map key ≠
    firstOccKeys
      [emptyContact, ⟨"A", "B", "", "", "", "", ""⟩,
       ⟨"", "", "x", "", "", "", ""⟩] := by
  decide

/-- C10 (amended): `merge_contacts` is a pure function of the input
list, and its output lists the groups in the accumulating map's
insertion order: the order of first occurrence of each key among the
contacts having at least one non-empty field (all-empty contacts create
no group). -/
theorem C10_merge_insertion_order_amended (l : List Contact) :
    (merge_contacts l).map key = insertionKeys l := by
  rw [merge_characterization, List.map_map]
  exact (List.map_congr_left
    (fun k hk => key_mkMerged (insertionKeys_sub_map hk))).trans (List.map_id' _)

/-- C8: the orchestrator's per-record processing joins the non-empty
name fields with spaces, re-parses them, normalizes the phone, passes
organization/position/email through, and merges once at the end. -/
theorem C8_orchestrator_follows_spec (raw : List Contact) :
    process_address_book_core raw = merge_contacts (raw.map processRecord_spec) := by
  rw [process_address_book_core]
  congr 1
  apply List.map_congr_left
  intro r _
  show processRecord r = processRecord_spec r
  unfold processRecord processRecord_spec
  have hfio : ((if r.lastname ≠ "" then [r.lastname] else []) ++
      (if r.firstname ≠ "" then [r.firstname] else []) ++
      (if r.surname ≠ "" then [r.surname] else [])) =
      [r.lastname, r.firstname, r.surname].filter (· ≠ "") := by
    by_cases h1 : r.lastname = "" <;> by_cases h2 : r.firstname = "" <;>
      by_cases h3 : r.surname = "" <;> simp [h1, h2, h3]
  rw [hfio]

end Phonebook
